import Mathlib

/-!
Verification of the indexing and retrieval core of the `standalone/`
video-search application.  The Python source is shallowly embedded:

* times and scores are modelled by `ℚ` (the source computes with IEEE
  floats; every claim checked here concerns comparisons and exact
  arithmetic on values that the embedding keeps exact),
* text is modelled by `String`, with `String.length` playing the role of
  Python `len` (both count characters),
* the external capabilities (the razdel/regex sentence segmenter, the
  sentence-embedding models, the Chroma vector store and the SQLite FTS
  table) enter as explicit parameters: a function standing for the
  segmenter, a function producing the adjacent-sentence cosine
  similarities, and plain lists or lookup functions standing for the
  store responses,
* a Python exception that escapes a function is modelled by `Option`
  / `Except`.

Sources embedded: `standalone/chunking_v2.py`, `standalone/search.py`,
`standalone/index.py`, `standalone/db.py`, `standalone/queue_pipeline.py`,
`standalone/routes/videos.py`, constants from `standalone/config.py`.
-/

set_option maxRecDepth 2200

namespace VSE

/-! ### Constants (`standalone/config.py`, lines 29-36) -/

def CHUNK_THRESHOLD : ℚ := 11/20

def CHUNK_MIN_CHARS : ℕ := 80

def CHUNK_MAX_CHARS : ℕ := 350

def CHUNK_MIN_SECONDS : ℚ := 5

def CHUNK_MAX_SECONDS : ℚ := 20

def SEARCH_TOP_K : ℕ := 20

/-! ### Python string helpers -/

/-- Python whitespace test (`str.strip` with no argument strips these;
the source only ever feeds ASCII whitespace through this path). -/
def isPyWs (c : Char) : Bool :=
  c = ' ' ∨ c = '\t' ∨ c = '\n' ∨ c = '\r' ∨ c = Char.ofNat 11 ∨ c = Char.ofNat 12

/-- Python `s.strip()`. -/
def pyStrip (s : String) : String :=
  String.mk (((s.data.dropWhile (fun c => isPyWs c)).reverse.dropWhile
    (fun c => isPyWs c)).reverse)

/-- Python `s.rstrip('.!?')`: remove every trailing sentence terminator. -/
def pyRstripTerm (s : String) : String :=
  String.mk ((s.data.reverse.dropWhile (fun c => c = '.' ∨ c = '!' ∨ c = '?')).reverse)

/-- Does the string end in one of `.!?` (Python `txt[-1] in '.!?'`)? -/
def endsTerm (s : String) : Bool :=
  match s.data.getLast? with
  | some c => c = '.' ∨ c = '!' ∨ c = '?'
  | none => false

/-- `" ".join(texts)` -/
def joinSp (texts : List String) : String :=
  String.intercalate " " texts

/-- Python `full.find(sub, from)` on character lists; `none` models `-1`. -/
def pyFindFrom (hay sub : List Char) (start : ℕ) : Option ℕ :=
  let rec go (l : List Char) (i : ℕ) : Option ℕ :=
    match l with
    | [] => if sub = [] then some i else none
    | _ :: rest => if sub.isPrefixOf l then some i else go rest (i + 1)
  go (hay.drop start) start

/-- Python `s.split()` (split on whitespace runs, no empty parts). -/
def pySplitWs (s : String) : List String :=
  (s.data.splitOnP (fun c => isPyWs c)).filterMap
    (fun w => if w = [] then none else some (String.mk w))

/-! ### Data model

`Seg` mirrors one row of the `segments` table as handed to the chunker
(`SELECT segment_id, video_id, start_sec, end_sec, text, words_json`).
`words_json` is modelled post-JSON-parse: `none` stands for a NULL,
empty or unparseable `words_json` (the source swallows the parse error
and proceeds without words), `some ws` for a parsed word list.  A word
carries the JSON keys `word`, `start`, `end`; `end` is spelled `stop`
because `end` is a Lean keyword. -/

structure Word where
  word : String
  start : ℚ
  stop : ℚ
deriving DecidableEq, Repr

structure Seg where
  segment_id : String
  video_id : String
  start_sec : ℚ
  end_sec : ℚ
  text : String
  words_json : Option (List Word)
deriving DecidableEq, Repr

/-- Parsed word list of a segment: the source's `json.loads(words_json)`
with every failure path yielding no words. -/
def Seg.words (s : Seg) : List Word :=
  s.words_json.getD []

/-- An emitted chunk: the source's tuple `(chunk_id, start, end, text)`. -/
structure Chunk where
  cid : String
  start_sec : ℚ
  end_sec : ℚ
  text : String
deriving DecidableEq, Repr

/-! ### `_merge_short_chunks_v2` (`chunking_v2.py`, lines 500-537) -/

/-- Merge of a short chunk into its neighbour:
`(prev_id, prev_start, cur_end, prev_txt.rstrip('.!?') + " " + cur_txt)`. -/
def mergeChunk (prev cur : Chunk) : Chunk :=
  { cid := prev.cid, start_sec := prev.start_sec, end_sec := cur.end_sec,
    text := pyRstripTerm prev.text ++ " " ++ cur.text }

/-- The forward pass of `_merge_short_chunks_v2`: the source mutates
`merged[-1]`; here the current last element is the `prev` accumulator. -/
def msLoop (minc : ℕ) : Chunk → List Chunk → List Chunk
  | prev, [] => [prev]
  | prev, cur :: rest =>
    if prev.text.length < minc ∧
        prev.text.length + cur.text.length + 1 ≤ CHUNK_MAX_CHARS ∧
        cur.end_sec - prev.start_sec ≤ CHUNK_MAX_SECONDS then
      msLoop minc (mergeChunk prev cur) rest
    else
      prev :: msLoop minc cur rest

/-- The trailing-chunk pass of `_merge_short_chunks_v2` (lines 524-535):
if the last chunk is still short, merge it backward into its
predecessor when the merged chunk respects both maxima. -/
def msBack (minc : ℕ) (l : List Chunk) : List Chunk :=
  match l.reverse with
  | b :: a :: rest =>
    if b.text.length < minc ∧
        a.text.length + b.text.length + 1 ≤ CHUNK_MAX_CHARS ∧
        b.end_sec - a.start_sec ≤ CHUNK_MAX_SECONDS then
      (mergeChunk a b :: rest).reverse
    else l
  | _ => l

def _merge_short_chunks_v2 (chunks : List Chunk) (minc : ℕ) : List Chunk :=
  if chunks.length ≤ 1 then chunks
  else
    match chunks with
    | [] => chunks
    | c0 :: rest => msBack minc (msLoop minc c0 rest)

/-! ### `_force_split_large_segment` (`chunking_v2.py`, lines 69-170)

The sentence segmenter `_split_sentences` dispatches on the presence of
the external razdel library (regex fallback otherwise); it is modelled
throughout as an explicit parameter `split : String → List String`.
Every theorem below either quantifies over `split` or concerns a run
that never invokes it. -/

/-- One proportional piece: `sent_duration = (sent_chars/total)*duration`
if `total_chars > 0` else `duration/n`. -/
def propDur (sentChars totalChars n : ℕ) (duration : ℚ) : ℚ :=
  if 0 < totalChars then ((sentChars : ℚ) / (totalChars : ℚ)) * duration
  else duration / (n : ℚ)

/-- The no-word-timestamps branch of `_force_split_large_segment`
(lines 148-167): distribute the duration over the sentences in
proportion to character length; the last sentence is pinned to `end`. -/
def forceSplitProp (seg : Seg) (sentences : List String) : List Seg :=
  let totalChars := (sentences.map String.length).sum
  let n := sentences.length
  let duration := seg.end_sec - seg.start_sec
  let rec go (cur : ℚ) (i : ℕ) : List String → List Seg
    | [] => []
    | sent :: rest =>
      let sentEnd0 := cur + propDur sent.length totalChars n duration
      let sentEnd := if rest = [] then seg.end_sec else sentEnd0
      { segment_id := seg.segment_id ++ "-" ++ toString i,
        video_id := seg.video_id,
        start_sec := cur, end_sec := sentEnd, text := sent,
        words_json := none } :: go sentEnd (i + 1) rest
  go seg.start_sec 0 sentences

/-- The word-timestamps branch of `_force_split_large_segment`
(lines 97-146): locate each sentence in `" ".join(words)`, count the
words before it, and take the matched words' time span; fall back to a
proportional slice when the sentence is not found or matches no word. -/
def forceSplitWords (seg : Seg) (sentences : List String) (wd : List Word) : List Seg :=
  let fullWords := joinSp (wd.map Word.word)
  let totalChars := (sentences.map String.length).sum
  let n := sentences.length
  let duration := seg.end_sec - seg.start_sec
  let rec go (cur : ℚ) (i : ℕ) : List String → List Seg
    | [] => []
    | sent :: rest =>
      let sentClean := pyStrip sent
      let matched :=
        match pyFindFrom fullWords.data sentClean.data 0 with
        | none => ([] : List Word)
        | some idx =>
          let wordsBefore := (pySplitWs (String.mk (fullWords.data.take idx))).length
          let nw := (pySplitWs sentClean).length
          ((wd.enum).filter (fun p => wordsBefore ≤ p.1 ∧ p.1 < wordsBefore + nw)).map
            Prod.snd
      let se :=
        match matched.head?, matched.getLast? with
        | some w0, some w1 => (w0.start, w1.stop)
        | _, _ =>
          (cur, cur + propDur sent.length totalChars n duration)
      let sentEnd := if rest = [] then seg.end_sec else se.2
      { segment_id := seg.segment_id ++ "-" ++ toString i,
        video_id := seg.video_id,
        start_sec := se.1, end_sec := sentEnd, text := sent,
        words_json := if matched = [] then none else some matched }
        :: go sentEnd (i + 1) rest
  go seg.start_sec 0 sentences

def _force_split_large_segment (split : String → List String) (seg : Seg) : List Seg :=
  let sentences := split seg.text
  if sentences.length ≤ 1 then [seg]
  else if seg.words ≠ [] then forceSplitWords seg sentences seg.words
  else forceSplitProp seg sentences

/-! ### `_fallback_chunk_v2` (`chunking_v2.py`, lines 387-497) -/

/-- `txt = " ".join(texts); if txt and txt[-1] not in '.!?': txt += '.'` -/
def finishText (texts : List String) : String :=
  let txt := joinSp texts
  if txt ≠ "" ∧ ¬ endsTerm txt then txt ++ "." else txt

/-- Running state of the fallback loop: emitted chunks plus the
accumulating `texts, start, end, clen`. -/
structure FbAcc where
  chunks : List Chunk
  texts : List String
  cstart : ℚ
  cend : ℚ
  clen : ℕ
deriving Repr

/-- Append the accumulated chunk (`f"seg-{len(chunks)}"`). -/
def fbEmit (acc : FbAcc) : List Chunk :=
  acc.chunks ++ [{ cid := "seg-" ++ toString acc.chunks.length,
                   start_sec := acc.cstart, end_sec := acc.cend,
                   text := finishText acc.texts }]

/-- The split-piece sub-loop of the oversized-segment branch
(lines 417-437). -/
def fbPieceStep (acc : FbAcc) (p : Seg) : FbAcc :=
  if ((acc.clen + p.text.length > CHUNK_MAX_CHARS) ∨
      (p.end_sec - acc.cstart ≥ CHUNK_MAX_SECONDS)) ∧ acc.clen ≥ CHUNK_MIN_CHARS then
    { chunks := fbEmit acc, texts := [p.text],
      cstart := p.start_sec, cend := p.end_sec, clen := p.text.length }
  else
    { acc with texts := acc.texts ++ [p.text], cend := p.end_sec,
               clen := acc.clen + p.text.length + 1 }

/-- One iteration of the fallback loop body (lines 401-456). -/
def fbStep (split : String → List String) (acc : FbAcc) (s : Seg) : FbAcc :=
  if (s.text.length > CHUNK_MAX_CHARS) ∨
      (s.end_sec - s.start_sec > CHUNK_MAX_SECONDS) then
    (_force_split_large_segment split s).foldl fbPieceStep
      (if acc.texts ≠ [] ∧ acc.clen ≥ CHUNK_MIN_CHARS then
        { chunks := fbEmit acc, texts := [],
          cstart := s.start_sec, cend := s.end_sec, clen := 0 }
      else acc)
  else if ((acc.clen + s.text.length > CHUNK_MAX_CHARS) ∨
      (s.end_sec - acc.cstart ≥ CHUNK_MAX_SECONDS)) ∧ acc.clen ≥ CHUNK_MIN_CHARS then
    { chunks := fbEmit acc, texts := [s.text],
      cstart := s.start_sec, cend := s.end_sec, clen := s.text.length }
  else
    { acc with texts := acc.texts ++ [s.text], cend := s.end_sec,
               clen := acc.clen + s.text.length + 1 }

/-- The proportional split of an over-limit trailing chunk
(lines 469-481 and, with chunk-id prefix `sem-`, lines 335-347):
`sent_end = current_start + d` clamped to `end`. -/
def fspGo (idp : String) (base : ℕ) (cend finalDur : ℚ) (totalChars n : ℕ) :
    ℚ → ℕ → List String → List Chunk
  | _, _, [] => []
  | cur, k, sent :: rest =>
    let d := propDur sent.length totalChars n finalDur
    let sentEnd0 := cur + d
    let sentEnd := if sentEnd0 > cend then cend else sentEnd0
    { cid := idp ++ toString (base + k), start_sec := cur,
      end_sec := sentEnd, text := sent }
      :: fspGo idp base cend finalDur totalChars n sentEnd (k + 1) rest

def finalSplitPieces (idp : String) (base : ℕ) (cstart cend finalDur : ℚ)
    (sentences : List String) : List Chunk :=
  fspGo idp base cend finalDur ((sentences.map String.length).sum) sentences.length
    cstart 0 sentences

/-- The trailing-chunk handling of the fallback path (lines 459-491). -/
def fbFinal (split : String → List String) (acc : FbAcc) : List Chunk :=
  if acc.texts = [] then acc.chunks
  else if (acc.clen > CHUNK_MAX_CHARS) ∨ (acc.cend - acc.cstart > CHUNK_MAX_SECONDS) then
    acc.chunks ++ finalSplitPieces "seg-" acc.chunks.length acc.cstart acc.cend
      (acc.cend - acc.cstart) (split (finishText acc.texts))
  else if acc.clen ≥ CHUNK_MIN_CHARS then
    acc.chunks ++ [{ cid := "seg-" ++ toString acc.chunks.length,
                     start_sec := acc.cstart, end_sec := acc.cend,
                     text := finishText acc.texts }]
  else
    match acc.chunks.reverse with
    | prev :: front =>
      ({ cid := prev.cid, start_sec := prev.start_sec, end_sec := acc.cend,
         text := pyRstripTerm prev.text ++ " " ++ finishText acc.texts } :: front).reverse
    | [] => [{ cid := "seg-0", start_sec := acc.cstart, end_sec := acc.cend,
               text := finishText acc.texts }]

def _fallback_chunk_v2 (split : String → List String) (segs : List Seg) : List Chunk :=
  match segs with
  | [] => []
  | s0 :: _ =>
    let acc0 : FbAcc :=
      { chunks := [], texts := [], cstart := s0.start_sec, cend := s0.end_sec,
        clen := 0 }
    let acc := segs.foldl (fbStep split) acc0
    _merge_short_chunks_v2 (fbFinal split acc) 60

/-! ### `semantic_chunk_v2` (`chunking_v2.py`, lines 173-364)

The adjacent-sentence cosine similarities come from the external
chunk-embedding model (`get_chunk_model().encode` followed by the
normalized dot products of lines 266-270); they are modelled by the
parameter `simsOf : List String → List ℚ`, applied to the sentence
texts.  The real model yields exactly one similarity per adjacent pair;
a longer list would make the source raise `IndexError` at
`sent_objs[i + 1]`, which the embedding models as `none`. -/

/-- Python `sorted(processed_segments, key=lambda s: s["start_sec"])`:
stable insertion sort, ascending by `start_sec`. -/
def sortByStart (l : List Seg) : List Seg :=
  List.insertionSort (fun a b => a.start_sec ≤ b.start_sec) l

/-- A word span of the char-offset → time map (ШАГ 3, lines 225-230):
`{"sc": cursor, "ec": cursor + wlen, "st": w.start, "et": w.end}`. -/
structure WordSpan where
  sc : ℕ
  ec : ℕ
  st : ℚ
  et : ℚ
deriving DecidableEq, Repr

def buildWordSpans : List Word → ℕ → List WordSpan
  | [], _ => []
  | w :: rest, cursor =>
    let wlen := w.word.length
    { sc := cursor, ec := cursor + wlen, st := w.start, et := w.stop }
      :: buildWordSpans rest (cursor + wlen + 1)

/-- `_merge_short_sentences` (lines 367-384). -/
def _merge_short_sentences (sentences : List String) (minLen : ℕ) : List String :=
  match sentences with
  | [] => []
  | s0 :: rest =>
    let rec go (cur : String) : List String → List String
      | [] => if cur = "" then [] else [if ¬ endsTerm cur then cur ++ "." else cur]
      | s :: more =>
        if cur.length < minLen then go (pyRstripTerm cur ++ " " ++ s) more
        else (if ¬ endsTerm cur then cur ++ "." else cur) :: go s more
    go s0 rest

/-- A sentence with projected timestamps (ШАГ 5, lines 241-254). -/
structure SentObj where
  text : String
  start : ℚ
  stop : ℚ
deriving DecidableEq, Repr

/-- Build `sent_objs`: find each sentence in the full text from the
running cursor; skip it when not found; take `st` from the span covering
the first character and `et` from the span covering the last (with the
source's two fallbacks). -/
def buildSentObjs (ft : List Char) (spans : List WordSpan) :
    List String → ℕ → List SentObj
  | [], _ => []
  | sent :: rest, cur =>
    let sc? := pyFindFrom ft (pyStrip sent).data cur
    match sc? with
    | none => buildSentObjs ft spans rest cur
    | some sc =>
      let ec := sc + (pyStrip sent).length
      let st := ((spans.find? (fun w => w.sc ≤ sc ∧ sc < w.ec)).map WordSpan.st).getD 0
      let et :=
        match spans.find? (fun w => (w.sc : ℤ) ≤ (ec : ℤ) - 1 ∧ (ec : ℤ) - 1 < (w.ec : ℤ)) with
        | some w => w.et
        | none =>
          match spans.reverse.find? (fun w => w.ec ≤ ec) with
          | some w => w.et
          | none => st
      { text := sent, start := st, stop := et } :: buildSentObjs ft spans rest ec

/-- Running state of the grouping loop (ШАГ 7, lines 272-321). -/
structure GrAcc where
  chunks : List Chunk
  group : List SentObj
  glen : ℕ
  gstart : ℚ
  gend : ℚ
deriving Repr

/-- Close the current group as a chunk `f"sem-{len(chunks)}"`. -/
def grEmit (acc : GrAcc) : List Chunk :=
  acc.chunks ++ [{ cid := "sem-" ++ toString acc.chunks.length,
                   start_sec := acc.gstart, end_sec := acc.gend,
                   text := finishText (acc.group.map SentObj.text) }]

/-- Reset the group to the single next sentence. -/
def grNew (chunks : List Chunk) (ns : SentObj) : GrAcc :=
  { chunks := chunks, group := [ns], glen := ns.text.length,
    gstart := ns.start, gend := ns.stop }

/-- One grouping step: `too_long` is checked before `too_short`. -/
def grStep (acc : GrAcc) (sim : ℚ) (ns : SentObj) : GrAcc :=
  let gduration := acc.gend - acc.gstart
  let tooLong := acc.glen ≥ CHUNK_MAX_CHARS ∨ gduration ≥ CHUNK_MAX_SECONDS
  let tooShort := acc.glen < CHUNK_MIN_CHARS ∨ gduration < CHUNK_MIN_SECONDS
  if tooLong then grNew (grEmit acc) ns
  else if tooShort then
    { acc with group := acc.group ++ [ns], glen := acc.glen + ns.text.length + 1,
               gend := ns.stop }
  else if sim < CHUNK_THRESHOLD then grNew (grEmit acc) ns
  else
    { acc with group := acc.group ++ [ns], glen := acc.glen + ns.text.length + 1,
               gend := ns.stop }

/-- The grouping loop `for i, sim in enumerate(sims): ns = sent_objs[i+1]`:
`rest` is `sent_objs[1:]`; more sims than remaining sentences is the
source's `IndexError`. -/
def grLoop : List ℚ → List SentObj → GrAcc → Option GrAcc
  | [], _, acc => some acc
  | sim :: ss, ns :: rs, acc => grLoop ss rs (grStep acc sim ns)
  | _ :: _, [], _ => none

/-- The trailing-group handling of the semantic path (lines 324-357). -/
def grFinal (split : String → List String) (acc : GrAcc) : List Chunk :=
  if acc.group = [] then acc.chunks
  else
    let txt := finishText (acc.group.map SentObj.text)
    let finalDuration := acc.gend - acc.gstart
    if (acc.glen > CHUNK_MAX_CHARS) ∨ (finalDuration > CHUNK_MAX_SECONDS) then
      acc.chunks ++ finalSplitPieces "sem-" acc.chunks.length acc.gstart acc.gend
        finalDuration (split txt)
    else if acc.glen ≥ CHUNK_MIN_CHARS ∧ finalDuration ≥ CHUNK_MIN_SECONDS then
      acc.chunks ++ [{ cid := "sem-" ++ toString acc.chunks.length,
                       start_sec := acc.gstart, end_sec := acc.gend, text := txt }]
    else
      match acc.chunks.reverse with
      | prev :: front =>
        ({ cid := prev.cid, start_sec := prev.start_sec, end_sec := acc.gend,
           text := pyRstripTerm prev.text ++ " " ++ txt } :: front).reverse
      | [] => [{ cid := "sem-0", start_sec := acc.gstart, end_sec := acc.gend,
                 text := txt }]

def semantic_chunk_v2 (split : String → List String)
    (simsOf : List String → List ℚ) (segments : List Seg) :
    Option (List Chunk) :=
  if segments = [] then some []
  else
    let processed := segments.flatMap (fun seg =>
      if (seg.text.length > CHUNK_MAX_CHARS) ∨
          (seg.end_sec - seg.start_sec > CHUNK_MAX_SECONDS) then
        _force_split_large_segment split seg
      else [seg])
    let segs := sortByStart processed
    let allWords := segs.flatMap Seg.words
    if allWords = [] then some (_fallback_chunk_v2 split segs)
    else
      let fullText := joinSp (allWords.map Word.word)
      let wordSpans := buildWordSpans allWords 0
      let sentences0 := split fullText
      if sentences0 = [] then some (_fallback_chunk_v2 split segs)
      else
        let sentences := _merge_short_sentences sentences0 40
        let sentObjs := buildSentObjs fullText.data wordSpans sentences 0
        if sentObjs.length ≤ 2 then
          match sentObjs.head?, sentObjs.getLast? with
          | some s0, some s1 =>
            some [{ cid := "sem-0", start_sec := s0.start, end_sec := s1.stop,
                    text := joinSp (sentObjs.map SentObj.text) }]
          | _, _ => none
        else
          match sentObjs with
          | [] => none
          | s0 :: rest =>
            let sims := simsOf (sentObjs.map SentObj.text)
            let acc0 : GrAcc :=
              { chunks := [], group := [s0], glen := s0.text.length,
                gstart := s0.start, gend := s0.stop }
            match grLoop sims rest acc0 with
            | none => none
            | some acc =>
              let chunks := _merge_short_chunks_v2 (grFinal split acc) 60
              some ((chunks.enum).map (fun p =>
                { p.2 with cid := "sem-" ++ toString p.1 }))

/-! ### Hybrid search (`standalone/search.py`)

The two stores are external: the Chroma query response and the FTS
query response enter as plain lists (`vecResp`, `rows`), and
`collection.get(ids=...)` as a lookup function `chromaGet`.  Scores and
distances are `ℚ`; Python `round(x, 4)` is `round4` (round half to
even, as Python's `round`). -/

/-- Floor of a rational, computed on the normalized `num/den` pair
(`Int.fdiv` is floor division; the denominator is positive). -/
def ratFloor (x : ℚ) : ℤ := Int.fdiv x.num (x.den : ℤ)

/-- The integer `n` as a rational, as an explicit normalized fraction
(definitionally equal to the cast, but cheap to evaluate). -/
def intToRat (n : ℤ) : ℚ := Rat.mk' n 1 one_ne_zero (Nat.coprime_one_right _)

/-- `10 ^ 4`, the scale of `round(x, 4)`. -/
def scale4 : ℚ := intToRat 10000

/-- Round half to even at 4 decimal places (Python `round(x, 4)`). -/
def rndNE (x : ℚ) : ℤ :=
  let f := ratFloor x
  let r := x - intToRat f
  if r > 1/2 then f + 1 else if r < 1/2 then f else if f % 2 = 0 then f else f + 1

def round4 (x : ℚ) : ℚ := intToRat (rndNE (x * scale4)) / scale4

/-- A search-result dict (`segment_id, video_id, start_sec, end_sec,
text, score, source`). -/
structure SR where
  segment_id : String
  video_id : String
  start_sec : ℚ
  end_sec : ℚ
  text : String
  score : ℚ
  source : String
deriving DecidableEq, Repr, Inhabited

/-- One row of the Chroma `collection.query` response (id, cosine
distance, metadata, stored document). -/
structure VecRaw where
  id : String
  distance : ℚ
  video_id : String
  start_sec : ℚ
  end_sec : ℚ
  doc : String
deriving DecidableEq, Repr

/-- One row of `db.fts_search` (`segment_id, video_id, text, rank`). -/
structure FtsHit where
  segment_id : String
  video_id : String
  text : String
  rank : ℚ
deriving DecidableEq, Repr

/-- Metadata held by the vector store for a chunk id. -/
structure ChromaMeta where
  video_id : String
  start_sec : ℚ
  end_sec : ℚ
deriving DecidableEq, Repr

/-- `_vector_search` (lines 36-65) applied to the store response:
documents shorter than 30 characters are discarded, the score is
`round(1 - dist, 4)`. -/
def _vector_search (resp : List VecRaw) : List SR :=
  (resp.filter (fun r => ¬ (r.doc.length < 30))).map (fun r =>
    { segment_id := r.id, video_id := r.video_id, start_sec := r.start_sec,
      end_sec := r.end_sec, text := r.doc, score := round4 (1 - r.distance),
      source := "vector" })

/-- ASCII fragment of Python `\w` (the claims under test use ASCII
queries; Python's class additionally covers non-ASCII letters). -/
def isWordChar (c : Char) : Bool := c.isAlphanum ∨ c = '_'

/-- `re.sub(r'[^\w\s]', ' ', query).strip()` (line 72). -/
def cleanQuery (q : String) : String :=
  pyStrip (String.mk (q.data.map (fun c => if isWordChar c ∨ isPyWs c then c else ' ')))

/-- `_fts_search` (lines 70-120): `rows` is the `db.fts_search` response
(the db was asked for `top_k * 3` rows when a `video_ids` filter is
present, `top_k` otherwise); timestamps are pulled from the vector
store by chunk id and default to `0.0` when the id has no record. -/
def _fts_search (rows : List FtsHit) (chromaGet : String → Option ChromaMeta)
    (query : String) (top_k : ℕ) (video_ids : Option (List String)) : List SR :=
  if cleanQuery query = "" then []
  else if rows = [] then []
  else
    let rows2 : List FtsHit :=
      match video_ids with
      | some vids =>
        if vids ≠ [] then (rows.filter (fun r => r.video_id ∈ vids)).take top_k
        else rows.take top_k
      | none => rows.take top_k
    rows2.filterMap (fun (r : FtsHit) =>
      if r.segment_id = "" then none
      else
        let score : ℚ := 1 / (1 + |r.rank|)
        let meta := chromaGet r.segment_id
        some { segment_id := r.segment_id,
               video_id := if r.video_id ≠ "" then r.video_id
                 else ((meta.map ChromaMeta.video_id).getD ""),
               start_sec := (meta.map ChromaMeta.start_sec).getD 0,
               end_sec := (meta.map ChromaMeta.end_sec).getD 0,
               text := r.text, score := round4 score, source := "fts" })

/-- Python `sorted(..., key=..., reverse=True)`: stable insertion sort,
descending by `key` (an earlier element stays before an equal later
one). -/
def sortDescBy {α : Type} (key : α → ℚ) (l : List α) : List α :=
  List.insertionSort (fun a b => key b ≤ key a) l

/-- `scores[sid] = scores.get(sid, 0.0) + v` on an insertion-ordered
association list (Python dicts preserve insertion order). -/
def alistAddScore (l : List (String × ℚ)) (k : String) (v : ℚ) :
    List (String × ℚ) :=
  if l.any (fun p => p.1 = k) then
    l.map (fun p => if p.1 = k then (p.1, p.2 + v) else p)
  else l ++ [(k, v)]

/-- `if sid not in payloads or item.get("source") == "vector":
payloads[sid] = item`. -/
def alistSetPayload (l : List (String × SR)) (k : String) (it : SR) :
    List (String × SR) :=
  if l.any (fun p => p.1 = k) then
    if it.source = "vector" then
      l.map (fun p => if p.1 = k then (p.1, it) else p)
    else l
  else l ++ [(k, it)]

/-- Accumulate one source list into the RRF state with 1-based ranks. -/
def rrfAddList (k : ℚ) (st : List (String × ℚ) × List (String × SR))
    (lst : List SR) : List (String × ℚ) × List (String × SR) :=
  lst.enum.foldl (fun st p =>
    let rank : ℚ := (p.1 : ℚ) + 1
    let sid := p.2.segment_id
    (alistAddScore st.1 sid (1 / (k + rank)), alistSetPayload st.2 sid p.2)) st

/-- `_rrf_merge` (lines 125-152). -/
def _rrf_merge (lists : List (List SR)) (k : ℚ) : List SR :=
  let st := lists.foldl (rrfAddList k) ([], [])
  let merged := sortDescBy (fun p => p.2) st.1
  merged.map (fun p =>
    let payload := ((st.2.find? (fun q => q.1 = p.1)).map Prod.snd).getD default
    { payload with score := round4 p.2, source := "hybrid" })

/-- `c_duration = max(c_end - c_start, 0.1)` (line 181). -/
def clampDur (c : SR) : ℚ := max (c.end_sec - c.start_sec) (1/10)

/-- `max(0, min(ends) - max(starts))` (lines 188-190). -/
def overlapLen (a b : SR) : ℚ :=
  max 0 (min a.end_sec b.end_sec - max a.start_sec b.start_sec)

/-- One step of the greedy keep loop (lines 178-197). -/
def keepStep (kept : List SR) (c : SR) : List SR :=
  if kept.any (fun k => overlapLen c k / clampDur c ≥ 1/2) then kept
  else kept ++ [c]

/-- Per-video greedy retention in descending fused score. -/
def greedyKeep (items : List SR) : List SR :=
  (sortDescBy SR.score items).foldl keepStep []

/-- `by_video.setdefault(vid, []).append(r)` over an insertion-ordered
association list. -/
def groupAdd (acc : List (String × List SR)) (r : SR) :
    List (String × List SR) :=
  if acc.any (fun g => g.1 = r.video_id) then
    acc.map (fun g => if g.1 = r.video_id then (g.1, g.2 ++ [r]) else g)
  else acc ++ [(r.video_id, [r])]

def groupByVid (rs : List SR) : List (String × List SR) := rs.foldl groupAdd []

/-- `_deduplicate_overlapping` (lines 157-202). -/
def _deduplicate_overlapping (results : List SR) : List SR :=
  if results = [] then results
  else
    let final := ((groupByVid results).map (fun g => greedyKeep g.2)).flatten
    sortDescBy SR.score final

/-- `search` (lines 207-246): `vecResp` is the Chroma response to the
embedded query with `n_results = top_k * 3` and the `video_ids` filter;
`rows` is the FTS response as in `_fts_search`. -/
def search (vecResp : List VecRaw) (rows : List FtsHit)
    (chromaGet : String → Option ChromaMeta) (query : String) (top_k : ℕ)
    (use_fts : Bool) (video_ids : Option (List String)) : List SR :=
  if pyStrip query = "" then []
  else
    let vecResults := _vector_search vecResp
    let ftsResults :=
      if use_fts then _fts_search rows chromaGet query (top_k * 3) video_ids
      else []
    let fused :=
      if ftsResults ≠ [] then _rrf_merge [vecResults, ftsResults] 60
      else vecResults
    (_deduplicate_overlapping fused).take top_k

/-! ### Dual-index maintenance (`standalone/index.py`, `standalone/db.py`) -/

/-- One row of the `segments_fts` table. -/
structure FtsRow where
  segment_id : String
  video_id : String
  text : String
deriving DecidableEq, Repr

/-- One record of the Chroma collection (the embedding vector itself is
irrelevant to every claim and is omitted). -/
structure VecRec where
  id : String
  video_id : String
  start_sec : ℚ
  end_sec : ℚ
  doc : String
deriving DecidableEq, Repr

/-- `upsert_fts` (`db.py`, lines 152-158): delete by `segment_id`, then
insert. -/
def upsert_fts (tbl : List FtsRow) (sid vid text : String) : List FtsRow :=
  tbl.filter (fun r => r.segment_id ≠ sid) ++ [⟨sid, vid, text⟩]

/-- Chroma `collection.upsert` for a single id: replace in place when
the id exists, append otherwise. -/
def chromaUpsert (store : List VecRec) (rec : VecRec) : List VecRec :=
  if store.any (fun r => r.id = rec.id) then
    store.map (fun r => if r.id = rec.id then rec else r)
  else store ++ [rec]

/-- An item of `all_items` (`index.py`, line 86): the chunk with its
store id `f"{video_id}-{cid}"`. -/
structure IdxItem where
  id : String
  vid : String
  s : ℚ
  e : ℚ
  t : String
deriving DecidableEq, Repr

/-- `index_video` (`index.py`, lines 45-121) as a transformer of the two
stores.  The early return on a video without segments leaves both
stores untouched; otherwise the video's prior FTS rows and vector
records are deleted, the chunker runs, and every chunk is upserted to
both stores (the source batches the upserts by 64, which yields the
same final state as the sequential fold).  `none` models an exception
escaping (in particular a chunker crash). -/
def index_video (split : String → List String) (simsOf : List String → List ℚ)
    (video_id : String) (segRows : List Seg) (fts : List FtsRow)
    (chroma : List VecRec) : Option (List FtsRow × List VecRec) :=
  if segRows = [] then some (fts, chroma)
  else
    let fts1 := fts.filter (fun r => r.video_id ≠ video_id)
    let chroma1 := chroma.filter (fun r => r.video_id ≠ video_id)
    match semantic_chunk_v2 split simsOf segRows with
    | none => none
    | some chunks =>
      let items : List IdxItem := chunks.map (fun c =>
        { id := video_id ++ "-" ++ c.cid, vid := video_id, s := c.start_sec,
          e := c.end_sec, t := c.text })
      some
        (items.foldl (fun t it => upsert_fts t it.id it.vid it.t) fts1,
         items.foldl (fun st it =>
           chromaUpsert st ⟨it.id, it.vid, it.s, it.e, it.t⟩) chroma1)

/-! ### `DELETE /videos/{id}` (`routes/videos.py`, lines 252-282) -/

structure VideoRow where
  video_id : String
  title : String
deriving DecidableEq, Repr

structure ClipRow where
  clip_id : String
  video_id : String
deriving DecidableEq, Repr

/-- The persistent state the delete route touches. -/
structure AppState where
  videos : List VideoRow
  segments : List Seg
  clips : List ClipRow
  fts : List FtsRow
  chroma : List VecRec
deriving Repr

/-- `api_delete_video`: deletes the video's rows from `segments`,
`clips` and `videos`, and its records from the Chroma collection; the
route issues no statement against `segments_fts`. -/
def api_delete_video (st : AppState) (video_id : String) : AppState :=
  { videos := st.videos.filter (fun r => r.video_id ≠ video_id),
    segments := st.segments.filter (fun r => r.video_id ≠ video_id),
    clips := st.clips.filter (fun r => r.video_id ≠ video_id),
    fts := st.fts,
    chroma := st.chroma.filter (fun r => r.video_id ≠ video_id) }

/-! ### Queue pipeline (`standalone/queue_pipeline.py`) -/

inductive QStatus where
  | waiting
  | processing
  | done
  | error (msg : String)
deriving DecidableEq, Repr

/-- `_run_pipeline` (lines 85-114): the whole body sits in a
`try/except` that logs the exception and returns normally, so a failure
of either stage never escapes.  The stage outcomes stand for
`transcribe(video_id)` and `index_video(video_id)` raising or not. -/
def _run_pipeline (transcribeResult indexResult : Except String Unit) :
    Except String Unit :=
  match transcribeResult with
  | .error _ => .ok ()
  | .ok _ =>
    match indexResult with
    | .error _ => .ok ()
    | .ok _ => .ok ()

/-- `_run_queued_pipeline` (lines 117-128): the terminal queue status of
a job that was still queued when the worker picked it up (`none` when
the entry had been removed). -/
def _run_queued_pipeline (inQueue : Bool)
    (transcribeResult indexResult : Except String Unit) : Option QStatus :=
  if ¬ inQueue then none
  else
    match _run_pipeline transcribeResult indexResult with
    | .ok _ => some .done
    | .error e => some (.error e)

/-! ### Predicates used by the claims -/

/-- The lexical store holds a row for chunk id `id` of video `v`. -/
def ftsHasId (tbl : List FtsRow) (v id : String) : Prop :=
  ∃ r ∈ tbl, r.video_id = v ∧ r.segment_id = id

/-- The vector store holds a record for chunk id `id` of video `v`. -/
def chHasId (st : List VecRec) (v id : String) : Prop :=
  ∃ r ∈ st, r.video_id = v ∧ r.id = id

instance (tbl : List FtsRow) (v id : String) : Decidable (ftsHasId tbl v id) :=
  List.decidableBEx _ tbl

instance (st : List VecRec) (v id : String) : Decidable (chHasId st v id) :=
  List.decidableBEx _ st

/-! ### Concrete inputs for the evaluated runs

The runs below never enter a branch that invokes the sentence segmenter
or the embedding model, so those parameters are instantiated with
placeholders; the computed result is independent of them. -/

def splitOne : String → List String := fun t => [t]

def noSims : List String → List ℚ := fun _ => []

def mkTxt (n : ℕ) : String := String.mk (List.replicate n 'a')

/-- Three word-less raw segments of 70, 340 and 10 characters on
`[0,1]`, `[1,3]`, `[3,4]` — each within both maxima. -/
def segsC1 : List Seg :=
  [⟨"s0", "v", 0, 1, mkTxt 70, none⟩,
   ⟨"s1", "v", 1, 3, mkTxt 340, none⟩,
   ⟨"s2", "v", 3, 4, mkTxt 10, none⟩]

/-- The single chunk the chunker emits for `segsC1`:
70 + 1 + 340 + 1 + 10 + 1 = 423 characters. -/
def chunkTextC1 : String := mkTxt 70 ++ " " ++ mkTxt 340 ++ " " ++ mkTxt 10 ++ "."

/-- Seven word-less raw segments of 100 characters, half a second each. -/
def segsC7 : List Seg :=
  (List.range 7).map (fun k =>
    ⟨"s" ++ toString k, "v", (k : ℚ) / 2, ((k : ℚ) + 1) / 2, mkTxt 100, none⟩)

def chunkTextC7 : String := mkTxt 100 ++ " " ++ mkTxt 100 ++ " " ++ mkTxt 100 ++ "."

def chunksC7 : List Chunk :=
  [⟨"seg-0", 0, 3/2, chunkTextC7⟩,
   ⟨"seg-1", 3/2, 3, chunkTextC7⟩,
   ⟨"seg-2", 3, 7/2, mkTxt 100 ++ "."⟩]

/-- Two word-less raw segments on overlapping intervals `[0,10]` and
`[5,15]`. -/
def segsC8 : List Seg :=
  [⟨"s0", "v", 0, 10, mkTxt 200, none⟩,
   ⟨"s1", "v", 5, 15, mkTxt 200, none⟩]

def chunksC8 : List Chunk :=
  [⟨"seg-0", 0, 10, mkTxt 200 ++ "."⟩,
   ⟨"seg-1", 5, 15, mkTxt 200 ++ "."⟩]

/-- An FTS hit whose chunk id has no record in the vector store. -/
def hitC9 : FtsHit := ⟨"x", "v", "stored text", -1⟩

/-- Two vector hits of the same video: `[0, 0.08]` at distance `0.1`
and `[0.035, 0.115]` at distance `0.2`; both documents are 30
characters long. -/
def vrC2a : VecRaw := ⟨"c1", 1/10, "v", 0, 2/25, mkTxt 30⟩

def vrC2b : VecRaw := ⟨"c2", 2/10, "v", 7/200, 23/200, String.mk (List.replicate 30 'b')⟩

def srC2a : SR := ⟨"c1", "v", 0, 2/25, mkTxt 30, 9/10, "vector"⟩

def srC2b : SR := ⟨"c2", "v", 7/200, 23/200, String.mk (List.replicate 30 'b'), 4/5, "vector"⟩

/-- A ranked result list as `_rrf_merge` receives it. -/
def mkSR (sid source : String) : SR := ⟨sid, "v", 0, 1, "text of " ++ sid, 0, source⟩

def denseC6 : List SR := [mkSR "A" "vector", mkSR "B" "vector", mkSR "C" "vector"]

def lexC6 : List SR := [mkSR "C" "fts", mkSR "B" "fts", mkSR "D" "fts"]

/-- A store state holding one video with a segment, a clip, one FTS row
and one vector record. -/
def stC4 : AppState :=
  { videos := [⟨"v1", "Title"⟩],
    segments := [⟨"v1-seg0", "v1", 0, 5, "segment text", none⟩],
    clips := [⟨"cl1", "v1"⟩],
    fts := [⟨"v1-sem-0", "v1", "chunk text"⟩],
    chroma := [⟨"v1-sem-0", "v1", 0, 5, "chunk text"⟩] }

/-- A stale FTS row of video `v` with no matching vector record. -/
def ftsC3 : List FtsRow := [⟨"stale-id", "v", "old text"⟩]

/-- One in-bounds word-less segment, enough for a successful
`index_video` run. -/
def segsC3 : List Seg := [⟨"s0", "v", 0, 6, mkTxt 100, none⟩]

def ftsInitC3 : List FtsRow := [⟨"old", "v", "x"⟩, ⟨"keep", "w", "y"⟩]

def chromaInitC3 : List VecRec := [⟨"stale", "v", 0, 0, "d"⟩, ⟨"other", "w", 0, 0, "d"⟩]

def ftsOutC3 : List FtsRow := [⟨"keep", "w", "y"⟩, ⟨"v-seg-0", "v", mkTxt 100 ++ "."⟩]

def chromaOutC3 : List VecRec :=
  [⟨"other", "w", 0, 0, "d"⟩, ⟨"v-seg-0", "v", 0, 6, mkTxt 100 ++ "."⟩]

/-- Disjoint in-bounds word-less segments for the C8 witness. -/
def segsC8w : List Seg :=
  [⟨"s0", "v", 0, 3, mkTxt 100, none⟩,
   ⟨"s1", "v", 4, 6, mkTxt 120, none⟩]

/-- Input chunks for the C7 witness: the first is short (10 chars) but
the pair would exceed `CHUNK_MAX_SECONDS` when merged. -/
def chunksC7w : List Chunk :=
  [⟨"seg-0", 0, 19, mkTxt 10⟩, ⟨"seg-1", 19, 21, mkTxt 100⟩]

/-- Invariant of the fallback loop state: the emitted chunks are
time-disjoint in order, each spans a non-negative interval, the last
one ends no later than the accumulating chunk starts, and the
accumulating interval is non-negative. -/
def fbInv (acc : FbAcc) : Prop :=
  List.Chain' (fun c d => c.end_sec ≤ d.start_sec) acc.chunks ∧
  (∀ c ∈ acc.chunks, c.start_sec ≤ c.end_sec) ∧
  (∀ c ∈ acc.chunks.getLast?, c.end_sec ≤ acc.cstart) ∧
  acc.cstart ≤ acc.cend

/-- Pairwise guarantee of the greedy keep loop of
`_deduplicate_overlapping`: every kept element passed its overlap test
against every element kept before it. -/
def keptOk (l : List SR) : Prop :=
  List.Pairwise (fun x y => overlapLen y x / clampDur y < 1/2) l

/-- Invariant of the `by_video` grouping fold: every member of a group
carries the group's key as its `video_id`, and the keys are distinct. -/
def groupsOk (acc : List (String × List SR)) : Prop :=
  (∀ g ∈ acc, ∀ r ∈ g.2, r.video_id = g.1) ∧ (acc.map Prod.fst).Nodup

/-- The pairwise overlap guarantee `_deduplicate_overlapping` actually
provides: two results of the same video fail the
50-%-of-clamped-duration overlap test in at least one direction. -/
def dedupOk (x y : SR) : Prop :=
  x.video_id = y.video_id →
    overlapLen x y / clampDur x < 1/2 ∨ overlapLen y x / clampDur y < 1/2

/-! ### Claim C1 -/

/-- C1: the claim that every chunk emitted by `semantic_chunk_v2`
(fallback path included) has at most `CHUNK_MAX_CHARS = 350` characters
and at most `CHUNK_MAX_SECONDS = 20` seconds fails on the code: for
three in-bounds word-less segments of 70, 340 and 10 characters the
fallback loop reaches `clen = 412` without ever emitting (the minimum
gate blocks emission until it is too late), and the run returns a
single chunk of 423 characters. -/
theorem C1_max_bounds_failing_run :
    semantic_chunk_v2 splitOne noSims segsC1 = some [⟨"seg-0", 0, 4, chunkTextC1⟩] ∧
      CHUNK_MAX_CHARS < chunkTextC1.length := by
  constructor
  · with_unfolding_all decide
  · with_unfolding_all decide

/-! ### Claim C4 -/

/-- C4: `api_delete_video` removes the video's rows from `videos`,
`segments` and `clips` and its records from the vector store, but
issues no `DELETE` against `segments_fts`: the FTS row of the deleted
video survives, contradicting the claim. -/
theorem C4_delete_leaves_fts_rows :
    (api_delete_video stC4 "v1").videos = [] ∧
    (api_delete_video stC4 "v1").segments = [] ∧
    (api_delete_video stC4 "v1").clips = [] ∧
    (api_delete_video stC4 "v1").chroma = [] ∧
    (api_delete_video stC4 "v1").fts = [⟨"v1-sem-0", "v1", "chunk text"⟩] := by
  refine ⟨?_, ?_, ?_, ?_, ?_⟩ <;> with_unfolding_all decide

/-! ### Claim C5 -/

/-- C5: `_run_pipeline` traps every stage exception and returns
normally, so `_run_queued_pipeline` marks a job whose transcription
failed as `done` instead of `error`, contradicting the claim that a
failed job is never left in status `done`. -/
theorem C5_failed_job_marked_done :
    _run_queued_pipeline true (.error "transcribe failed") (.ok ()) = some .done ∧
    ∀ msg, _run_queued_pipeline true (.error "transcribe failed") (.ok ())
      ≠ some (.error msg) := by
  exact ⟨rfl, fun msg => by simp [_run_queued_pipeline, _run_pipeline]⟩

/-! ### Claim C6 -/

/-- C6 (counterexample): with dense ranking `[A,B,C]` and lexical
ranking `[C,B,D]`, `_rrf_merge` with `K = 60` does not produce the
order `B, C, A, D` stated by the spec (B is ranked second in both
lists, so its fused score is `1/62 + 1/62`, which is smaller than C's
`1/63 + 1/61`). -/
theorem C6_rrf_order_counterexample :
    (_rrf_merge [denseC6, lexC6] 60).map SR.segment_id ≠ ["B", "C", "A", "D"] := by
  with_unfolding_all decide

/-- C6 (amended): the fused order is `C, B, A, D` — the fused score of
each id is the sum of `1/(60 + rank)` over the lists it appears in,
giving C `1/63 + 1/61`, B `1/62 + 1/62`, A `1/61`, D `1/63`. -/
theorem C6_rrf_fused_order :
    (_rrf_merge [denseC6, lexC6] 60).map SR.segment_id = ["C", "B", "A", "D"] ∧
    ((1 : ℚ)/63 + 1/61 > 1/62 + 1/62 ∧ (1 : ℚ)/62 + 1/62 > 1/61 ∧ (1 : ℚ)/61 > 1/63) := by
  constructor
  · with_unfolding_all decide
  · refine ⟨by norm_num, by norm_num, by norm_num⟩

/-! ### Claim C9 -/

/-- C9: a lexical hit whose chunk id has no vector-store record is not
skipped: `_fts_search` fills the missing timestamps with the
`(0.0, 0.0)` fallback and `search` returns the result, contradicting
the claim. -/
theorem C9_zero_timestamp_result_returned :
    (search [] [hitC9] (fun _ => none) "sometext" 5 true none).map
      (fun r => (r.segment_id, r.video_id, r.start_sec, r.end_sec, r.text, r.source)) =
      [("x", "v", (0 : ℚ), (0 : ℚ), "stored text", "hybrid")] := by
  with_unfolding_all decide

/-! ### Claim C10 -/

/-- C10: a query that strips to the empty string makes `search` return
the empty list at once, for every `top_k`, `video_ids` filter and any
contents of the two stores (the result does not depend on the store
parameters, so neither store is consulted). -/
theorem C10_blank_query_empty (vecResp : List VecRaw) (rows : List FtsHit)
    (chromaGet : String → Option ChromaMeta) (query : String) (top_k : ℕ)
    (use_fts : Bool) (video_ids : Option (List String))
    (h : pyStrip query = "") :
    search vecResp rows chromaGet query top_k use_fts video_ids = [] := by
  simp [search, h]

/-- Witness for C10 at the whitespace-only query `" \t "`. -/
theorem C10_blank_query_witness :
    pyStrip " \t " = "" ∧
    search [vrC2a] [hitC9] (fun _ => none) " \t " 7 true none = [] :=
  ⟨by with_unfolding_all decide, C10_blank_query_empty _ _ _ _ _ _ _ (by with_unfolding_all decide)⟩

/-! ### Counterexamples for C2, C3, C7, C8 -/

/-- C2 (counterexample): two returned results of the same video can
overlap by at least 50 % of the later-kept candidate's duration — the
source clamps the candidate duration to `max(dur, 0.1)` before the
ratio test, so a 0.08 s candidate overlapping a kept result by 0.045 s
(56 % of its duration, but only 45 % of the clamped 0.1 s) is kept. -/
theorem C2_overlap_counterexample :
    search [vrC2a, vrC2b] [] (fun _ => none) "hello" 5 true none = [srC2a, srC2b] ∧
    srC2a.video_id = srC2b.video_id ∧ srC2a ≠ srC2b ∧
    (1/2) * (srC2b.end_sec - srC2b.start_sec) ≤ overlapLen srC2a srC2b := by
  refine ⟨by with_unfolding_all decide, rfl, by with_unfolding_all decide,
    by with_unfolding_all decide⟩

/-- C3 (counterexample): `index_video` on a video with no raw segments
returns before touching either store, so stale ids of the video are
not removed and the two stores can disagree after a successful run. -/
theorem C3_empty_segments_counterexample :
    index_video splitOne noSims "v" [] ftsC3 [] = some (ftsC3, []) ∧
    ftsHasId ftsC3 "v" "stale-id" ∧ ¬ chHasId ([] : List VecRec) "v" "stale-id" := by
  refine ⟨rfl, by with_unfolding_all decide, by with_unfolding_all decide⟩

/-- C7 (counterexample): on seven word-less 100-character segments of
half a second each, the chunker emits a first chunk of 1.5 seconds —
below `CHUNK_MIN_SECONDS = 5` although it is not the last chunk — and
the post-merge pass (threshold 60, not `MIN_CHARS = 80`) leaves it in
place. -/
theorem C7_min_bounds_counterexample :
    semantic_chunk_v2 splitOne noSims segsC7 = some chunksC7 ∧
    3 ≤ chunksC7.length ∧
    (∃ c ∈ chunksC7.dropLast, c.end_sec - c.start_sec < CHUNK_MIN_SECONDS) := by
  refine ⟨by with_unfolding_all decide, by with_unfolding_all decide,
    by with_unfolding_all decide⟩

/-- C8 (counterexample): for two overlapping word-less raw segments
(`[0,10]` and `[5,15]`; the word-timestamp hypothesis of the claim is
vacuous), the fallback chunker emits chunks `[0,10]` and `[5,15]` in
that order, with `c_0.end = 10 > 5 = c_1.start`. -/
theorem C8_overlap_counterexample :
    (∀ s ∈ segsC8, s.words = []) ∧
    semantic_chunk_v2 splitOne noSims segsC8 = some chunksC8 ∧
    ¬ List.Chain' (fun c d => c.end_sec ≤ d.start_sec) chunksC8 := by
  refine ⟨by with_unfolding_all decide, by with_unfolding_all decide, ?_⟩
  rw [chunksC8, List.chain'_pair]
  with_unfolding_all decide

/-! ### Lemmas about the post-merge pass -/

theorem pyRstripTerm_length_le (s : String) : (pyRstripTerm s).length ≤ s.length := by
  show ((s.data.reverse.dropWhile _).reverse).length ≤ s.data.length
  rw [List.length_reverse]
  calc ((s.data.reverse.dropWhile _)).length ≤ s.data.reverse.length :=
        (List.dropWhile_sublist _).length_le
    _ = s.data.length := List.length_reverse _

theorem mergeChunk_text_length_le (p c : Chunk) :
    (mergeChunk p c).text.length ≤ p.text.length + c.text.length + 1 := by
  show (pyRstripTerm p.text ++ " " ++ c.text).length ≤ _
  rw [String.length_append, String.length_append]
  have h := pyRstripTerm_length_le p.text
  have hs : (" " : String).length = 1 := rfl
  omega

/-- A merge performed under the guard of `_merge_short_chunks_v2`
respects both maxima. -/
theorem mergeChunk_bounds (p c : Chunk)
    (hlen : p.text.length + c.text.length + 1 ≤ CHUNK_MAX_CHARS)
    (hdur : c.end_sec - p.start_sec ≤ CHUNK_MAX_SECONDS) :
    (mergeChunk p c).text.length ≤ CHUNK_MAX_CHARS ∧
    (mergeChunk p c).end_sec - (mergeChunk p c).start_sec ≤ CHUNK_MAX_SECONDS :=
  ⟨le_trans (mergeChunk_text_length_le p c) hlen, hdur⟩

theorem msLoop_safety (minc : ℕ) (S : List Chunk) :
    ∀ (rest : List Chunk) (prev : Chunk),
      (prev ∈ S ∨ (prev.text.length ≤ CHUNK_MAX_CHARS ∧
        prev.end_sec - prev.start_sec ≤ CHUNK_MAX_SECONDS)) →
      (∀ c ∈ rest, c ∈ S) →
      ∀ c ∈ msLoop minc prev rest,
        c ∈ S ∨ (c.text.length ≤ CHUNK_MAX_CHARS ∧
          c.end_sec - c.start_sec ≤ CHUNK_MAX_SECONDS) := by
  intro rest
  induction rest with
  | nil =>
    intro prev hp _ c hc
    simp only [msLoop, List.mem_singleton] at hc
    exact hc ▸ hp
  | cons cur rest ih =>
    intro prev hp hmem c hc
    simp only [msLoop] at hc
    split at hc
    case isTrue h =>
      exact ih (mergeChunk prev cur) (Or.inr (mergeChunk_bounds prev cur h.2.1 h.2.2))
        (fun x hx => hmem x (List.mem_cons_of_mem _ hx)) c hc
    case isFalse h =>
      rcases List.mem_cons.mp hc with rfl | hc2
      · exact hp
      · exact ih cur (Or.inl (hmem cur (List.mem_cons_self _ _)))
          (fun x hx => hmem x (List.mem_cons_of_mem _ hx)) c hc2

theorem msBack_safety (minc : ℕ) (S : List Chunk) (l : List Chunk)
    (hl : ∀ c ∈ l, c ∈ S ∨ (c.text.length ≤ CHUNK_MAX_CHARS ∧
      c.end_sec - c.start_sec ≤ CHUNK_MAX_SECONDS)) :
    ∀ c ∈ msBack minc l,
      c ∈ S ∨ (c.text.length ≤ CHUNK_MAX_CHARS ∧
        c.end_sec - c.start_sec ≤ CHUNK_MAX_SECONDS) := by
  intro c hc
  unfold msBack at hc
  split at hc
  case h_1 b a rest hrev =>
    split at hc
    case isTrue h =>
      rw [List.mem_reverse, List.mem_cons] at hc
      rcases hc with rfl | hc2
      · exact Or.inr (mergeChunk_bounds a b h.2.1 h.2.2)
      · refine hl c (List.mem_reverse.mp ?_)
        rw [hrev]
        exact List.mem_cons_of_mem _ (List.mem_cons_of_mem _ hc2)
    case isFalse h => exact hl c hc
  case h_2 => exact hl c hc

/-! ### Claim C7 -/

/-- C7 (amended): the chunker guarantees neither per-chunk minimum for
non-last chunks (see `C7_min_bounds_counterexample`), and the post-merge
pass runs with threshold 60 rather than `MIN_CHARS = 80`; what the pass
does guarantee is that it merges only under the maxima: every chunk in
its output is either an input chunk or a merged chunk that respects
both `CHUNK_MAX_CHARS` and `CHUNK_MAX_SECONDS`. -/
theorem C7_merge_pass_max_safety (chunks : List Chunk) :
    ∀ c ∈ _merge_short_chunks_v2 chunks 60,
      c ∈ chunks ∨ (c.text.length ≤ CHUNK_MAX_CHARS ∧
        c.end_sec - c.start_sec ≤ CHUNK_MAX_SECONDS) := by
  cases chunks with
  | nil =>
    intro c hc
    simp only [_merge_short_chunks_v2] at hc
    exact Or.inl hc
  | cons c0 rest =>
    intro c hc
    unfold _merge_short_chunks_v2 at hc
    split at hc
    · exact Or.inl hc
    · exact msBack_safety 60 (c0 :: rest) _ (fun x hx =>
        msLoop_safety 60 (c0 :: rest) rest c0 (Or.inl (List.mem_cons_self _ _))
          (fun y hy => List.mem_cons_of_mem _ hy) x hx) c hc

/-- Witness for C7 at a concrete chunk list: the short first chunk is
not merged because the merged duration would exceed the maximum, and it
reappears untouched in the output. -/
theorem C7_merge_pass_witness :
    (⟨"seg-0", 0, 19, mkTxt 10⟩ : Chunk) ∈ _merge_short_chunks_v2 chunksC7w 60 ∧
    ((⟨"seg-0", 0, 19, mkTxt 10⟩ : Chunk) ∈ chunksC7w ∨
      ((⟨"seg-0", 0, 19, mkTxt 10⟩ : Chunk).text.length ≤ CHUNK_MAX_CHARS ∧
        (⟨"seg-0", 0, 19, mkTxt 10⟩ : Chunk).end_sec -
          (⟨"seg-0", 0, 19, mkTxt 10⟩ : Chunk).start_sec ≤ CHUNK_MAX_SECONDS)) :=
  ⟨by with_unfolding_all decide,
   C7_merge_pass_max_safety chunksC7w _ (by with_unfolding_all decide)⟩

/-! ### Lemmas for the fallback chunker (claim C8) -/

theorem propDur_nonneg (a b n : ℕ) (d : ℚ) (hd : 0 ≤ d) : 0 ≤ propDur a b n d := by
  unfold propDur
  split
  · exact mul_nonneg (div_nonneg (Nat.cast_nonneg a) (Nat.cast_nonneg b)) hd
  · exact div_nonneg hd (Nat.cast_nonneg n)

/-- The proportional final-split pieces are contiguous, stay inside
`[cur, cend]`, and start exactly at the running cursor. -/
theorem fspGo_inv (idp : String) (base : ℕ) (cend finalDur : ℚ) (tc n : ℕ)
    (hd : 0 ≤ finalDur) :
    ∀ (sentences : List String) (cur : ℚ) (k : ℕ), cur ≤ cend →
      List.Chain' (fun c d => c.end_sec ≤ d.start_sec)
        (fspGo idp base cend finalDur tc n cur k sentences) ∧
      (∀ c ∈ fspGo idp base cend finalDur tc n cur k sentences,
        c.start_sec ≤ c.end_sec ∧ c.end_sec ≤ cend) ∧
      (∀ c ∈ (fspGo idp base cend finalDur tc n cur k sentences).head?,
        c.start_sec = cur) := by
  intro sentences
  induction sentences with
  | nil =>
    intro cur k _
    refine ⟨by simp [fspGo], by simp [fspGo], by simp [fspGo]⟩
  | cons sent rest ih =>
    intro cur k hcur
    have hd0 : 0 ≤ propDur sent.length tc n finalDur := propDur_nonneg _ _ _ _ hd
    simp only [fspGo]
    set sentEnd :=
      if cur + propDur sent.length tc n finalDur > cend then cend
      else cur + propDur sent.length tc n finalDur with hse
    have h1 : cur ≤ sentEnd := by
      rw [hse]; split
      · exact hcur
      · linarith
    have h2 : sentEnd ≤ cend := by
      rw [hse]; split
      · exact le_refl _
      · linarith [not_lt.mp (by assumption : ¬ cur + propDur sent.length tc n finalDur > cend)]
    obtain ⟨ih1, ih2, ih3⟩ := ih sentEnd (k + 1) h2
    refine ⟨?_, ?_, ?_⟩
    · rw [List.chain'_cons']
      exact ⟨fun c hc => le_of_eq (ih3 c hc).symm, ih1⟩
    · intro c hc
      rcases List.mem_cons.mp hc with rfl | hc2
      · exact ⟨h1, h2⟩
      · exact ih2 c hc2
    · intro c hc
      simp only [List.head?_cons, Option.mem_def, Option.some.injEq] at hc
      rw [← hc]

/-- The merge passes preserve time-disjointness of the chunk list. -/
theorem msLoop_disj (minc : ℕ) :
    ∀ (rest : List Chunk) (prev : Chunk),
      prev.start_sec ≤ prev.end_sec →
      (∀ c ∈ rest, c.start_sec ≤ c.end_sec) →
      List.Chain' (fun c d => c.end_sec ≤ d.start_sec) (prev :: rest) →
      List.Chain' (fun c d => c.end_sec ≤ d.start_sec) (msLoop minc prev rest) ∧
      (∀ c ∈ msLoop minc prev rest, c.start_sec ≤ c.end_sec) ∧
      (∀ c ∈ (msLoop minc prev rest).head?, c.start_sec = prev.start_sec) := by
  intro rest
  induction rest with
  | nil =>
    intro prev hp _ _
    refine ⟨by simp [msLoop], by simp [msLoop, hp], by simp [msLoop]⟩
  | cons cur rest ih =>
    intro prev hp hmem hch
    rw [List.chain'_cons] at hch
    have hpc : prev.end_sec ≤ cur.start_sec := hch.1
    have hcur : cur.start_sec ≤ cur.end_sec := hmem cur (List.mem_cons_self _ _)
    have hrest : ∀ c ∈ rest, c.start_sec ≤ c.end_sec :=
      fun c hc => hmem c (List.mem_cons_of_mem _ hc)
    simp only [msLoop]
    split
    case isTrue h =>
      have hm : (mergeChunk prev cur).start_sec ≤ (mergeChunk prev cur).end_sec := by
        show prev.start_sec ≤ cur.end_sec
        calc prev.start_sec ≤ prev.end_sec := hp
          _ ≤ cur.start_sec := hpc
          _ ≤ cur.end_sec := hcur
      have hch2 : List.Chain' (fun c d => c.end_sec ≤ d.start_sec)
          (mergeChunk prev cur :: rest) := by
        rw [List.chain'_cons'] at hch ⊢
        exact ⟨hch.2.1, hch.2.2⟩
      obtain ⟨r1, r2, r3⟩ := ih (mergeChunk prev cur) hm hrest hch2
      exact ⟨r1, r2, fun c hc => r3 c hc⟩
    case isFalse h =>
      obtain ⟨r1, r2, r3⟩ := ih cur hcur hrest hch.2
      refine ⟨?_, ?_, ?_⟩
      · rw [List.chain'_cons']
        refine ⟨fun c hc => ?_, r1⟩
        rw [r3 c hc]
        exact hpc
      · intro c hc
        rcases List.mem_cons.mp hc with rfl | hc2
        · exact hp
        · exact r2 c hc2
      · simp only [List.head?_cons, Option.mem_def, Option.some.injEq]
        intro c hc
        rw [← hc]

theorem msBack_disj (minc : ℕ) (l : List Chunk)
    (h1 : List.Chain' (fun c d => c.end_sec ≤ d.start_sec) l) :
    List.Chain' (fun c d => c.end_sec ≤ d.start_sec) (msBack minc l) := by
  unfold msBack
  split
  case h_1 b a rest hrev =>
    split
    case isTrue h =>
      have hl : l = rest.reverse ++ [a, b] := by
        have h' := congrArg List.reverse hrev
        rw [List.reverse_reverse] at h'
        rw [h']
        simp
      rw [hl] at h1
      rw [List.chain'_append] at h1
      rw [List.reverse_cons, List.chain'_append]
      refine ⟨h1.1, by simp, ?_⟩
      intro x hx y hy
      simp only [List.head?_cons, Option.mem_def, Option.some.injEq] at hy
      have hxa := h1.2.2 x hx a (by simp)
      rw [← hy]
      exact hxa
    case isFalse h => exact h1
  case h_2 => exact h1

theorem mergePass_disj (minc : ℕ) (chunks : List Chunk)
    (h1 : List.Chain' (fun c d => c.end_sec ≤ d.start_sec) chunks)
    (h2 : ∀ c ∈ chunks, c.start_sec ≤ c.end_sec) :
    List.Chain' (fun c d => c.end_sec ≤ d.start_sec)
      (_merge_short_chunks_v2 chunks minc) := by
  cases chunks with
  | nil =>
    unfold _merge_short_chunks_v2
    simp
  | cons c0 rest =>
    unfold _merge_short_chunks_v2
    split
    · exact h1
    · exact msBack_disj minc _
        (msLoop_disj minc rest c0 (h2 c0 (List.mem_cons_self _ _))
          (fun c hc => h2 c (List.mem_cons_of_mem _ hc)) h1).1

theorem fbEmit_inv (acc : FbAcc) (h : fbInv acc) :
    List.Chain' (fun c d => c.end_sec ≤ d.start_sec) (fbEmit acc) ∧
    (∀ c ∈ fbEmit acc, c.start_sec ≤ c.end_sec) ∧
    ∀ c ∈ (fbEmit acc).getLast?, c.end_sec = acc.cend := by
  obtain ⟨h1, h2, h3, h4⟩ := h
  refine ⟨?_, ?_, ?_⟩
  · unfold fbEmit
    rw [List.chain'_append]
    refine ⟨h1, by simp, ?_⟩
    intro x hx y hy
    simp only [List.head?_cons, Option.mem_def, Option.some.injEq] at hy
    rw [← hy]
    exact h3 x hx
  · intro c hc
    unfold fbEmit at hc
    rcases List.mem_append.mp hc with hc2 | hc2
    · exact h2 c hc2
    · simp only [List.mem_singleton] at hc2
      rw [hc2]
      exact h4
  · intro c hc
    unfold fbEmit at hc
    rw [List.getLast?_concat] at hc
    simp only [Option.mem_def, Option.some.injEq] at hc
    rw [← hc]

/-- One fallback step on an in-bounds segment preserves the invariant,
provided the running chunk ends before the segment starts. -/
theorem fbStep_inv (split : String → List String) (acc : FbAcc) (s : Seg)
    (hse : s.start_sec ≤ s.end_sec) (hlen : s.text.length ≤ CHUNK_MAX_CHARS)
    (hdur : s.end_sec - s.start_sec ≤ CHUNK_MAX_SECONDS)
    (hacc : fbInv acc) (hhead : acc.cend ≤ s.start_sec) :
    fbInv (fbStep split acc s) ∧ (fbStep split acc s).cend = s.end_sec := by
  obtain ⟨h1, h2, h3, h4⟩ := hacc
  unfold fbStep
  rw [if_neg (by push_neg; exact ⟨hlen, hdur⟩)]
  split
  case isTrue h =>
    obtain ⟨e1, e2, e3⟩ := fbEmit_inv acc ⟨h1, h2, h3, h4⟩
    refine ⟨⟨e1, e2, ?_, hse⟩, rfl⟩
    intro c hc
    calc c.end_sec = acc.cend := e3 c hc
      _ ≤ s.start_sec := hhead
  case isFalse h =>
    refine ⟨⟨h1, h2, h3, ?_⟩, rfl⟩
    calc acc.cstart ≤ acc.cend := h4
      _ ≤ s.start_sec := hhead
      _ ≤ s.end_sec := hse

theorem fbFold_inv (split : String → List String) :
    ∀ (rest : List Seg) (acc : FbAcc),
      (∀ s ∈ rest, s.start_sec ≤ s.end_sec ∧ s.text.length ≤ CHUNK_MAX_CHARS ∧
        s.end_sec - s.start_sec ≤ CHUNK_MAX_SECONDS) →
      List.Chain' (fun a b => a.end_sec ≤ b.start_sec) rest →
      (∀ s ∈ rest.head?, acc.cend ≤ s.start_sec) →
      fbInv acc →
      fbInv (rest.foldl (fbStep split) acc) := by
  intro rest
  induction rest with
  | nil =>
    intro acc _ _ _ h
    simpa using h
  | cons s rest ih =>
    intro acc hok hch hhead hacc
    rw [List.foldl_cons]
    obtain ⟨hs1, hs2, hs3⟩ := hok s (List.mem_cons_self _ _)
    obtain ⟨hstep, hcend⟩ :=
      fbStep_inv split acc s hs1 hs2 hs3 hacc (hhead s (by simp))
    refine ih _ (fun x hx => hok x (List.mem_cons_of_mem _ hx)) hch.tail ?_ hstep
    intro s1 hs1m
    rw [hcend]
    exact (List.chain'_cons'.mp hch).1 s1 hs1m

theorem fbFinal_disj (split : String → List String) (acc : FbAcc) (h : fbInv acc) :
    List.Chain' (fun c d => c.end_sec ≤ d.start_sec) (fbFinal split acc) ∧
    ∀ c ∈ fbFinal split acc, c.start_sec ≤ c.end_sec := by
  obtain ⟨h1, h2, h3, h4⟩ := h
  unfold fbFinal
  split
  · exact ⟨h1, h2⟩
  · split
    case isTrue =>
      have hfd : (0 : ℚ) ≤ acc.cend - acc.cstart := by linarith
      obtain ⟨p1, p2, p3⟩ := fspGo_inv "seg-" acc.chunks.length acc.cend
        (acc.cend - acc.cstart) ((split (finishText acc.texts)).map String.length).sum
        (split (finishText acc.texts)).length hfd
        (split (finishText acc.texts)) acc.cstart 0 h4
      constructor
      · unfold finalSplitPieces
        rw [List.chain'_append]
        refine ⟨h1, p1, ?_⟩
        intro x hx y hy
        rw [p3 y hy]
        exact h3 x hx
      · intro c hc
        unfold finalSplitPieces at hc
        rcases List.mem_append.mp hc with hc2 | hc2
        · exact h2 c hc2
        · exact (p2 c hc2).1
    case isFalse =>
      split
      case isTrue =>
        constructor
        · rw [List.chain'_append]
          refine ⟨h1, by simp, ?_⟩
          intro x hx y hy
          simp only [List.head?_cons, Option.mem_def, Option.some.injEq] at hy
          rw [← hy]
          exact h3 x hx
        · intro c hc
          rcases List.mem_append.mp hc with hc2 | hc2
          · exact h2 c hc2
          · simp only [List.mem_singleton] at hc2
            rw [hc2]
            exact h4
      case isFalse =>
        split
        case h_1 prev front hrev =>
          have hl : acc.chunks = front.reverse ++ [prev] := by
            have h' := congrArg List.reverse hrev
            rw [List.reverse_reverse] at h'
            rw [h']
            simp
          have hprev : prev.end_sec ≤ acc.cstart := by
            refine h3 prev ?_
            rw [hl, List.getLast?_concat]
            rfl
          have hprev2 : prev.start_sec ≤ prev.end_sec := by
            refine h2 prev ?_
            rw [hl]
            exact List.mem_append.mpr (Or.inr (List.mem_singleton.mpr rfl))
          rw [hl] at h1
          rw [List.chain'_append] at h1
          constructor
          · rw [List.reverse_cons, List.chain'_append]
            refine ⟨h1.1, by simp, ?_⟩
            intro x hx y hy
            simp only [List.head?_cons, Option.mem_def, Option.some.injEq] at hy
            have hxa := h1.2.2 x hx prev (by simp)
            rw [← hy]
            exact hxa
          · intro c hc
            rw [List.reverse_cons] at hc
            rcases List.mem_append.mp hc with hc2 | hc2
            · refine h2 c ?_
              rw [hl]
              exact List.mem_append.mpr (Or.inl hc2)
            · simp only [List.mem_singleton] at hc2
              rw [hc2]
              show prev.start_sec ≤ acc.cend
              calc prev.start_sec ≤ prev.end_sec := hprev2
                _ ≤ acc.cstart := hprev
                _ ≤ acc.cend := h4
        case h_2 =>
          exact ⟨by simp, by simp [h4]⟩

theorem chain_start_of_disj :
    ∀ (segs : List Seg), (∀ s ∈ segs, s.start_sec ≤ s.end_sec) →
      List.Chain' (fun a b : Seg => a.end_sec ≤ b.start_sec) segs →
      List.Chain' (fun a b : Seg => a.start_sec ≤ b.start_sec) segs
  | [], _, _ => List.chain'_nil
  | [a], _, _ => List.chain'_singleton a
  | a :: b :: rest, hse, h => by
    rw [List.chain'_cons] at h ⊢
    refine ⟨?_, chain_start_of_disj (b :: rest)
      (fun s hs => hse s (List.mem_cons_of_mem _ hs)) h.2⟩
    calc a.start_sec ≤ a.end_sec := hse a (List.mem_cons_self _ _)
      _ ≤ b.start_sec := h.1

theorem sortByStart_sorted_id (segs : List Seg)
    (hse : ∀ s ∈ segs, s.start_sec ≤ s.end_sec)
    (h : List.Chain' (fun a b : Seg => a.end_sec ≤ b.start_sec) segs) :
    sortByStart segs = segs := by
  haveI : IsTrans Seg (fun a b : Seg => a.start_sec ≤ b.start_sec) :=
    ⟨fun _ _ _ h1 h2 => le_trans h1 h2⟩
  exact List.Sorted.insertionSort_eq
    (List.chain'_iff_pairwise.mp (chain_start_of_disj segs hse h))

theorem flatMap_inbounds_id (split : String → List String) (segs : List Seg)
    (h : ∀ s ∈ segs, s.text.length ≤ CHUNK_MAX_CHARS ∧
      s.end_sec - s.start_sec ≤ CHUNK_MAX_SECONDS) :
    segs.flatMap (fun seg =>
      if (seg.text.length > CHUNK_MAX_CHARS) ∨
          (seg.end_sec - seg.start_sec > CHUNK_MAX_SECONDS) then
        _force_split_large_segment split seg
      else [seg]) = segs := by
  induction segs with
  | nil => rfl
  | cons s rest ih =>
    obtain ⟨hl, hd⟩ := h s (List.mem_cons_self _ _)
    rw [List.flatMap_cons, if_neg (by push_neg; exact ⟨hl, hd⟩),
      ih (fun x hx => h x (List.mem_cons_of_mem _ hx))]
    rfl

theorem flatMap_words_nil (segs : List Seg) (h : ∀ s ∈ segs, s.words = []) :
    segs.flatMap Seg.words = [] := by
  induction segs with
  | nil => rfl
  | cons s rest ih =>
    rw [List.flatMap_cons, h s (List.mem_cons_self _ _), List.nil_append]
    exact ih fun x hx => h x (List.mem_cons_of_mem _ hx)

theorem fallback_disj (split : String → List String) (segs : List Seg)
    (hok : ∀ s ∈ segs, s.start_sec ≤ s.end_sec ∧ s.text.length ≤ CHUNK_MAX_CHARS ∧
      s.end_sec - s.start_sec ≤ CHUNK_MAX_SECONDS)
    (hch : List.Chain' (fun a b => a.end_sec ≤ b.start_sec) segs) :
    List.Chain' (fun c d => c.end_sec ≤ d.start_sec) (_fallback_chunk_v2 split segs) := by
  cases segs with
  | nil => simp [_fallback_chunk_v2]
  | cons s0 rest =>
    obtain ⟨hs1, hs2, hs3⟩ := hok s0 (List.mem_cons_self _ _)
    have hfirst : fbInv (fbStep split ⟨[], [], s0.start_sec, s0.end_sec, 0⟩ s0) ∧
        (fbStep split ⟨[], [], s0.start_sec, s0.end_sec, 0⟩ s0).cend = s0.end_sec := by
      unfold fbStep
      rw [if_neg (by push_neg; exact ⟨hs2, hs3⟩)]
      rw [if_neg (by
        rintro ⟨-, hm⟩
        simp [CHUNK_MIN_CHARS] at hm)]
      exact ⟨⟨List.chain'_nil, by simp, by simp, hs1⟩, rfl⟩
    have hfold : fbInv ((s0 :: rest).foldl (fbStep split)
        ⟨[], [], s0.start_sec, s0.end_sec, 0⟩) := by
      rw [List.foldl_cons]
      refine fbFold_inv split rest _ (fun x hx => hok x (List.mem_cons_of_mem _ hx))
        hch.tail ?_ hfirst.1
      intro s1 hs1m
      rw [hfirst.2]
      exact (List.chain'_cons'.mp hch).1 s1 hs1m
    unfold _fallback_chunk_v2
    obtain ⟨f1, f2⟩ := fbFinal_disj split _ hfold
    exact mergePass_disj 60 _ f1 f2

/-- C8: on a transcript whose segments carry no word-level timing data,
are pairwise time-disjoint in order, and individually respect the
chunker's maximum bounds, `semantic_chunk_v2` succeeds and the chunks it
returns are themselves pairwise time-disjoint in order (no two returned
chunks overlap in time).  This is the amended form of the claim that
returned chunks never overlap: without the disjointness hypothesis on
the input the claim fails (`C8_overlap_counterexample`), because the
fallback path concatenates segment intervals as given. -/
theorem C8_fallback_nonoverlap (split : String → List String)
    (simsOf : List String → List ℚ) (segs : List Seg)
    (hok : ∀ s ∈ segs, s.start_sec ≤ s.end_sec ∧ s.words = [] ∧
      s.text.length ≤ CHUNK_MAX_CHARS ∧ s.end_sec - s.start_sec ≤ CHUNK_MAX_SECONDS)
    (hdisj : List.Chain' (fun a b : Seg => a.end_sec ≤ b.start_sec) segs) :
    ∃ cs, semantic_chunk_v2 split simsOf segs = some cs ∧
      List.Chain' (fun c d : Chunk => c.end_sec ≤ d.start_sec) cs := by
  by_cases hne : segs = []
  · subst hne
    exact ⟨[], rfl, List.chain'_nil⟩
  · have hproc := flatMap_inbounds_id split segs
      (fun s hs => ⟨(hok s hs).2.2.1, (hok s hs).2.2.2⟩)
    have hsorted := sortByStart_sorted_id segs (fun s hs => (hok s hs).1) hdisj
    have hwords := flatMap_words_nil segs (fun s hs => (hok s hs).2.1)
    refine ⟨_fallback_chunk_v2 split segs, ?_, fallback_disj split segs
      (fun s hs => ⟨(hok s hs).1, (hok s hs).2.2.1, (hok s hs).2.2.2⟩) hdisj⟩
    unfold semantic_chunk_v2
    rw [if_neg hne]
    simp only [hproc, hsorted, hwords, if_true]

theorem C8_fallback_nonoverlap_witness :
    ∃ cs, semantic_chunk_v2 splitOne noSims segsC8w = some cs ∧
      List.Chain' (fun c d : Chunk => c.end_sec ≤ d.start_sec) cs :=
  C8_fallback_nonoverlap splitOne noSims segsC8w
    (by with_unfolding_all decide)
    (by rw [segsC8w, List.chain'_pair]; with_unfolding_all decide)

/-! ### Lemmas for claim C2 -/

theorem sortDescBy_perm {α : Type} (key : α → ℚ) (l : List α) :
    (sortDescBy key l).Perm l :=
  List.perm_insertionSort _ l

theorem sortDescBy_sorted {α : Type} (key : α → ℚ) (l : List α) :
    List.Pairwise (fun a b => key b ≤ key a) (sortDescBy key l) := by
  haveI : IsTotal α (fun a b => key b ≤ key a) :=
    ⟨fun a b => le_total (key b) (key a)⟩
  haveI : IsTrans α (fun a b => key b ≤ key a) :=
    ⟨fun _ _ _ h1 h2 => le_trans h2 h1⟩
  exact List.sorted_insertionSort _ l

theorem keepStep_inv (kept : List SR) (c : SR) (h : keptOk kept) :
    keptOk (keepStep kept c) := by
  unfold keptOk at h ⊢
  unfold keepStep
  split
  case isTrue => exact h
  case isFalse hno =>
    simp only [List.any_eq_true, decide_eq_true_eq] at hno
    push_neg at hno
    refine List.pairwise_append.mpr ⟨h, List.pairwise_singleton _ _, ?_⟩
    intro x hx y hy
    rw [List.mem_singleton] at hy
    subst hy
    exact hno x hx

theorem keepStep_subset (kept : List SR) (c : SR) :
    ∀ y ∈ keepStep kept c, y ∈ kept ∨ y = c := by
  intro y hy
  unfold keepStep at hy
  split at hy
  · exact Or.inl hy
  · rcases List.mem_append.mp hy with h2 | h2
    · exact Or.inl h2
    · exact Or.inr (List.mem_singleton.mp h2)

theorem keepFold_inv (items : List SR) :
    ∀ kept : List SR, keptOk kept → keptOk (items.foldl keepStep kept) := by
  induction items with
  | nil => intro kept h; exact h
  | cons c rest ih =>
    intro kept h
    rw [List.foldl_cons]
    exact ih _ (keepStep_inv kept c h)

theorem keepFold_subset (items : List SR) :
    ∀ kept : List SR, ∀ y ∈ items.foldl keepStep kept, y ∈ kept ∨ y ∈ items := by
  induction items with
  | nil => intro kept y hy; exact Or.inl hy
  | cons c rest ih =>
    intro kept y hy
    rw [List.foldl_cons] at hy
    rcases ih _ y hy with h2 | h2
    · rcases keepStep_subset kept c y h2 with h3 | h3
      · exact Or.inl h3
      · exact Or.inr (h3 ▸ List.mem_cons_self _ _)
    · exact Or.inr (List.mem_cons_of_mem _ h2)

theorem greedyKeep_ok (items : List SR) : keptOk (greedyKeep items) :=
  keepFold_inv _ [] List.Pairwise.nil

theorem greedyKeep_subset (items : List SR) :
    ∀ y ∈ greedyKeep items, y ∈ items := by
  intro y hy
  rcases keepFold_subset (sortDescBy SR.score items) [] y hy with h | h
  · exact absurd h (List.not_mem_nil y)
  · exact (sortDescBy_perm SR.score items).mem_iff.mp h

theorem groupAdd_ok (acc : List (String × List SR)) (r : SR)
    (h : groupsOk acc) : groupsOk (groupAdd acc r) := by
  obtain ⟨h1, h2⟩ := h
  unfold groupAdd
  split
  case isTrue =>
    constructor
    · intro g hg r2 hr2
      rw [List.mem_map] at hg
      obtain ⟨g0, hg0, hge⟩ := hg
      by_cases hk : g0.1 = r.video_id
      · rw [if_pos hk] at hge
        subst hge
        rcases List.mem_append.mp hr2 with hr3 | hr3
        · exact h1 g0 hg0 r2 hr3
        · rw [List.mem_singleton] at hr3
          subst hr3
          exact hk.symm
      · rw [if_neg hk] at hge
        subst hge
        exact h1 g0 hg0 r2 hr2
    · have hm : ((acc.map fun g =>
          if g.1 = r.video_id then (g.1, g.2 ++ [r]) else g).map Prod.fst) =
          acc.map Prod.fst := by
        rw [List.map_map]
        refine List.map_congr_left ?_
        intro g _
        by_cases hk : g.1 = r.video_id
        · rw [Function.comp_apply, if_pos hk]
        · rw [Function.comp_apply, if_neg hk]
      rw [hm]
      exact h2
  case isFalse hno =>
    simp only [List.any_eq_true, decide_eq_true_eq] at hno
    push_neg at hno
    constructor
    · intro g hg r2 hr2
      rcases List.mem_append.mp hg with hg2 | hg2
      · exact h1 g hg2 r2 hr2
      · rw [List.mem_singleton] at hg2
        subst hg2
        rw [List.mem_singleton] at hr2
        subst hr2
        rfl
    · rw [List.map_append]
      refine List.Nodup.append h2 (List.nodup_singleton _) ?_
      intro a ha hb
      simp only [List.map_cons, List.map_nil, List.mem_singleton] at hb
      subst hb
      rw [List.mem_map] at ha
      obtain ⟨g, hg, hge⟩ := ha
      exact absurd hge (hno g hg)

theorem groupFold_ok (rs : List SR) :
    ∀ acc, groupsOk acc → groupsOk (rs.foldl groupAdd acc) := by
  induction rs with
  | nil => intro acc h; exact h
  | cons r rest ih =>
    intro acc h
    rw [List.foldl_cons]
    exact ih _ (groupAdd_ok acc r h)

theorem groupByVid_ok (rs : List SR) : groupsOk (groupByVid rs) :=
  groupFold_ok rs [] ⟨fun g hg => absurd hg (List.not_mem_nil g), List.nodup_nil⟩

theorem dedupOk_symm : Symmetric dedupOk := by
  intro x y h hv
  rcases h hv.symm with h2 | h2
  · exact Or.inr h2
  · exact Or.inl h2

theorem dedup_pairwise (results : List SR) :
    List.Pairwise dedupOk (_deduplicate_overlapping results) := by
  unfold _deduplicate_overlapping
  split
  case isTrue h =>
    subst h
    exact List.Pairwise.nil
  case isFalse _ =>
    have hperm := sortDescBy_perm SR.score
      (((groupByVid results).map (fun g => greedyKeep g.2)).flatten)
    refine (List.Perm.pairwise_iff (fun hxy => dedupOk_symm hxy) hperm).mpr ?_
    rw [List.pairwise_flatten]
    obtain ⟨hmem, hnodup⟩ := groupByVid_ok results
    constructor
    · intro l hl
      rw [List.mem_map] at hl
      obtain ⟨g, hg, hge⟩ := hl
      subst hge
      exact (greedyKeep_ok g.2).imp (fun hab _ => Or.inr hab)
    · rw [List.pairwise_map]
      have hkeys := List.pairwise_map.mp hnodup
      refine hkeys.imp_of_mem ?_
      intro g1 g2 hg1 hg2 hne12 x hx y hy hv
      have hx2 : x.video_id = g1.1 := hmem g1 hg1 x (greedyKeep_subset g1.2 x hx)
      have hy2 : y.video_id = g2.1 := hmem g2 hg2 y (greedyKeep_subset g2.2 y hy)
      exact absurd (hx2.symm.trans (hv.trans hy2)) hne12

theorem dedup_sorted (results : List SR) :
    List.Pairwise (fun a b : SR => b.score ≤ a.score)
      (_deduplicate_overlapping results) := by
  unfold _deduplicate_overlapping
  split
  case isTrue h =>
    subst h
    exact List.Pairwise.nil
  case isFalse _ => exact sortDescBy_sorted SR.score _

/-- C2 (amended): for every query, stores, `top_k` and filter, `search`
returns at most `top_k` results, the returned scores are non-increasing
in output order, and any two returned results of the same `video_id`
fail the 50-%-overlap test in at least one direction — with the
candidate's duration clamped below by `0.1` seconds as the source does
(`max(c_end - c_start, 0.1)`), the amendment forced by
`C2_overlap_counterexample`. -/
theorem C2_search_bounds (vecResp : List VecRaw) (rows : List FtsHit)
    (chromaGet : String → Option ChromaMeta) (query : String) (top_k : ℕ)
    (use_fts : Bool) (video_ids : Option (List String)) :
    (search vecResp rows chromaGet query top_k use_fts video_ids).length ≤ top_k ∧
    List.Chain' (fun a b : SR => b.score ≤ a.score)
      (search vecResp rows chromaGet query top_k use_fts video_ids) ∧
    List.Pairwise dedupOk
      (search vecResp rows chromaGet query top_k use_fts video_ids) := by
  by_cases hq : pyStrip query = ""
  · simp only [search, if_pos hq]
    exact ⟨Nat.zero_le _, List.chain'_nil, List.Pairwise.nil⟩
  · simp only [search, if_neg hq]
    exact ⟨List.length_take_le _ _,
      ((dedup_sorted _).sublist (List.take_sublist _ _)).chain',
      (dedup_pairwise _).sublist (List.take_sublist _ _)⟩

/-! ### Lemmas for claim C3 -/

theorem ftsUpsert_char (tbl : List FtsRow) (sid vid txt v id : String) :
    ftsHasId (upsert_fts tbl sid vid txt) v id ↔
      (vid = v ∧ id = sid) ∨ (id ≠ sid ∧ ftsHasId tbl v id) := by
  unfold upsert_fts ftsHasId
  constructor
  · rintro ⟨r, hr, hrv, hrs⟩
    rcases List.mem_append.mp hr with h2 | h2
    · rw [List.mem_filter] at h2
      have hne : r.segment_id ≠ sid := by
        have h3 := h2.2
        simpa using h3
      refine Or.inr ⟨?_, r, h2.1, hrv, hrs⟩
      rw [← hrs]
      exact hne
    · rw [List.mem_singleton] at h2
      subst h2
      exact Or.inl ⟨hrv, hrs.symm⟩
  · rintro (⟨hv, hid⟩ | ⟨hne, r, hr, hrv, hrs⟩)
    · exact ⟨⟨sid, vid, txt⟩,
        List.mem_append.mpr (Or.inr (List.mem_singleton.mpr rfl)), hv, hid.symm⟩
    · refine ⟨r, List.mem_append.mpr (Or.inl ?_), hrv, hrs⟩
      rw [List.mem_filter]
      refine ⟨hr, ?_⟩
      simp only [decide_eq_true_eq]
      rw [hrs]
      exact hne

theorem chUpsert_char (st : List VecRec) (rec : VecRec) (v id : String) :
    chHasId (chromaUpsert st rec) v id ↔
      (rec.video_id = v ∧ id = rec.id) ∨ (id ≠ rec.id ∧ chHasId st v id) := by
  unfold chromaUpsert chHasId
  split
  case isTrue hex =>
    simp only [List.any_eq_true, decide_eq_true_eq] at hex
    obtain ⟨r0, hr0, hr0id⟩ := hex
    constructor
    · rintro ⟨r, hr, hrv, hri⟩
      rw [List.mem_map] at hr
      obtain ⟨r1, hr1, hre⟩ := hr
      by_cases hk : r1.id = rec.id
      · rw [if_pos hk] at hre
        subst hre
        exact Or.inl ⟨hrv, hri.symm⟩
      · rw [if_neg hk] at hre
        subst hre
        refine Or.inr ⟨?_, r1, hr1, hrv, hri⟩
        rw [← hri]
        exact hk
    · rintro (⟨hv, hid⟩ | ⟨hne, r, hr, hrv, hri⟩)
      · refine ⟨rec, ?_, hv, hid.symm⟩
        rw [List.mem_map]
        exact ⟨r0, hr0, by rw [if_pos hr0id]⟩
      · refine ⟨r, ?_, hrv, hri⟩
        rw [List.mem_map]
        refine ⟨r, hr, ?_⟩
        rw [if_neg (fun h => hne (hri ▸ h))]
  case isFalse hnex =>
    simp only [List.any_eq_true, decide_eq_true_eq] at hnex
    push_neg at hnex
    constructor
    · rintro ⟨r, hr, hrv, hri⟩
      rcases List.mem_append.mp hr with h2 | h2
      · refine Or.inr ⟨?_, r, h2, hrv, hri⟩
        rw [← hri]
        exact hnex r h2
      · rw [List.mem_singleton] at h2
        subst h2
        exact Or.inl ⟨hrv, hri.symm⟩
    · rintro (⟨hv, hid⟩ | ⟨hne, r, hr, hrv, hri⟩)
      · exact ⟨rec, List.mem_append.mpr (Or.inr (List.mem_singleton.mpr rfl)),
          hv, hid.symm⟩
      · exact ⟨r, List.mem_append.mpr (Or.inl hr), hrv, hri⟩

theorem ftsFold_char (v : String) :
    ∀ (items : List IdxItem) (tbl : List FtsRow),
      (∀ it ∈ items, it.vid = v) → ∀ id : String,
      (ftsHasId (items.foldl (fun t it => upsert_fts t it.id it.vid it.t) tbl) v id ↔
        (∃ it ∈ items, it.id = id) ∨
          ((∀ it ∈ items, it.id ≠ id) ∧ ftsHasId tbl v id)) := by
  intro items
  induction items with
  | nil =>
    intro tbl _ id
    simp
  | cons it rest ih =>
    intro tbl hvid id
    rw [List.foldl_cons,
      ih _ (fun x hx => hvid x (List.mem_cons_of_mem _ hx)) id, ftsUpsert_char]
    constructor
    · rintro (⟨j, hj, hje⟩ | ⟨hall, (⟨hv, hid⟩ | ⟨hne, htbl⟩)⟩)
      · exact Or.inl ⟨j, List.mem_cons_of_mem _ hj, hje⟩
      · exact Or.inl ⟨it, List.mem_cons_self _ _, hid.symm⟩
      · refine Or.inr ⟨?_, htbl⟩
        intro j hj
        rcases List.mem_cons.mp hj with h2 | h2
        · subst h2
          exact fun he => hne he.symm
        · exact hall j h2
    · rintro (⟨j, hj, hje⟩ | ⟨hall, htbl⟩)
      · rcases List.mem_cons.mp hj with h2 | h2
        · subst h2
          by_cases hrest : ∃ j2 ∈ rest, j2.id = id
          · exact Or.inl hrest
          · push_neg at hrest
            exact Or.inr ⟨hrest,
              Or.inl ⟨hvid j (List.mem_cons_self _ _), hje.symm⟩⟩
        · exact Or.inl ⟨j, h2, hje⟩
      · exact Or.inr ⟨fun j hj => hall j (List.mem_cons_of_mem _ hj),
          Or.inr ⟨fun he => hall it (List.mem_cons_self _ _) he.symm, htbl⟩⟩

theorem chFold_char (v : String) :
    ∀ (items : List IdxItem) (st : List VecRec),
      (∀ it ∈ items, it.vid = v) → ∀ id : String,
      (chHasId (items.foldl (fun st it =>
          chromaUpsert st ⟨it.id, it.vid, it.s, it.e, it.t⟩) st) v id ↔
        (∃ it ∈ items, it.id = id) ∨
          ((∀ it ∈ items, it.id ≠ id) ∧ chHasId st v id)) := by
  intro items
  induction items with
  | nil =>
    intro st _ id
    simp
  | cons it rest ih =>
    intro st hvid id
    rw [List.foldl_cons,
      ih _ (fun x hx => hvid x (List.mem_cons_of_mem _ hx)) id, chUpsert_char]
    constructor
    · rintro (⟨j, hj, hje⟩ | ⟨hall, (⟨hv, hid⟩ | ⟨hne, htbl⟩)⟩)
      · exact Or.inl ⟨j, List.mem_cons_of_mem _ hj, hje⟩
      · exact Or.inl ⟨it, List.mem_cons_self _ _, hid.symm⟩
      · refine Or.inr ⟨?_, htbl⟩
        intro j hj
        rcases List.mem_cons.mp hj with h2 | h2
        · subst h2
          exact fun he => hne he.symm
        · exact hall j h2
    · rintro (⟨j, hj, hje⟩ | ⟨hall, htbl⟩)
      · rcases List.mem_cons.mp hj with h2 | h2
        · subst h2
          by_cases hrest : ∃ j2 ∈ rest, j2.id = id
          · exact Or.inl hrest
          · push_neg at hrest
            exact Or.inr ⟨hrest,
              Or.inl ⟨hvid j (List.mem_cons_self _ _), hje.symm⟩⟩
        · exact Or.inl ⟨j, h2, hje⟩
      · exact Or.inr ⟨fun j hj => hall j (List.mem_cons_of_mem _ hj),
          Or.inr ⟨fun he => hall it (List.mem_cons_self _ _) he.symm, htbl⟩⟩

theorem ftsFilter_not (fts : List FtsRow) (v id : String) :
    ¬ ftsHasId (fts.filter (fun r => r.video_id ≠ v)) v id := by
  rintro ⟨r, hr, hrv, -⟩
  rw [List.mem_filter] at hr
  simp only [decide_eq_true_eq] at hr
  exact hr.2 hrv

theorem chFilter_not (ch : List VecRec) (v id : String) :
    ¬ chHasId (ch.filter (fun r => r.video_id ≠ v)) v id := by
  rintro ⟨r, hr, hrv, -⟩
  rw [List.mem_filter] at hr
  simp only [decide_eq_true_eq] at hr
  exact hr.2 hrv

/-- C3 (amended): after a successful `index_video` run on a video with
at least one transcript segment, a chunk id is stored in the FTS table
for that video exactly when it is stored in the vector store for that
video — both stores first drop the video's prior records and then
receive the same upserts.  The non-emptiness hypothesis is forced by
`C3_empty_segments_counterexample`: on a segment-less video the run
returns early and cleans neither store. -/
theorem C3_dual_index_agreement (split : String → List String)
    (simsOf : List String → List ℚ) (video_id : String) (segRows : List Seg)
    (fts : List FtsRow) (chroma : List VecRec)
    (out : List FtsRow × List VecRec)
    (hne : segRows ≠ [])
    (hrun : index_video split simsOf video_id segRows fts chroma = some out) :
    ∀ id, ftsHasId out.1 video_id id ↔ chHasId out.2 video_id id := by
  unfold index_video at hrun
  rw [if_neg hne] at hrun
  cases hc : semantic_chunk_v2 split simsOf segRows with
  | none =>
    simp only [hc] at hrun
    exact Option.noConfusion hrun
  | some chunks =>
    simp only [hc] at hrun
    have hvid : ∀ it ∈ chunks.map (fun c => ({ id := video_id ++ "-" ++ c.cid, vid := video_id, s := c.start_sec, e := c.end_sec, t := c.text } : IdxItem)), it.vid = video_id := by
      intro it hit
      rw [List.mem_map] at hit
      obtain ⟨c, -, hce⟩ := hit
      rw [← hce]
    have hout := Option.some.inj hrun
    intro id
    rw [← hout]
    constructor
    · intro h
      rcases (ftsFold_char video_id _ _ hvid id).mp h with h2 | h2
      · exact (chFold_char video_id _ _ hvid id).mpr (Or.inl h2)
      · exact absurd h2.2 (ftsFilter_not fts video_id id)
    · intro h
      rcases (chFold_char video_id _ _ hvid id).mp h with h2 | h2
      · exact (ftsFold_char video_id _ _ hvid id).mpr (Or.inl h2)
      · exact absurd h2.2 (chFilter_not chroma video_id id)

theorem C3_dual_index_agreement_witness :
    segsC3 ≠ [] ∧
    index_video splitOne noSims "v" segsC3 ftsInitC3 chromaInitC3 =
      some (ftsOutC3, chromaOutC3) ∧
    (ftsHasId ftsOutC3 "v" "v-seg-0" ↔ chHasId chromaOutC3 "v" "v-seg-0") :=
  ⟨by with_unfolding_all decide, by with_unfolding_all decide,
   C3_dual_index_agreement splitOne noSims "v" segsC3 ftsInitC3 chromaInitC3
     (ftsOutC3, chromaOutC3) (by with_unfolding_all decide)
     (by with_unfolding_all decide) "v-seg-0"⟩

end VSE
